import Mathlib

/-!
Verification of the meetup-alarm event-normalization and idempotent-action
subsystem (`src/meetup_alarm.py`), shallowly embedded in Lean 4.

Instants (Python timezone-aware `datetime` values) are modelled as integers
counting seconds; `timedelta.days` becomes floor division by 86400.
Strings are ASCII-modelled: the regex classes `\w` and `\s` are embedded as
`isWordChar` and `isPySpace` below.
-/

namespace MeetupAlarm

/-! ## Character classes used by the regex pipeline in `format_event_message` -/

/-- Python regex `\s` (ASCII): space, tab, newline, carriage return,
vertical tab, form feed.  Also the class `str.split()` splits on. -/
def isPySpace (c : Char) : Bool :=
  c == ' ' || c == '\t' || c == '\n' || c == '\r' || c == '\x0b' || c == '\x0c'

/-- Python regex `\w` (ASCII): letters, digits and underscore. -/
def isWordChar (c : Char) : Bool :=
  c.isAlpha || c.isDigit || c == '_'

/-- The markdown-emphasis class removed by `re.sub(r'[*_~`]', '', title)`. -/
def isEmph (c : Char) : Bool :=
  c == '*' || c == '_' || c == '~' || c == Char.ofNat 96

/-- The conservative character set kept by `re.sub(r'[^\w\s\-.,!?]', '', title)`. -/
def isAllowedChar (c : Char) : Bool :=
  isWordChar c || isPySpace c || c == '-' || c == '.' || c == ',' || c == '!' || c == '?'

/-! ## `re.sub(r'\[([^\]]+)\]\([^)]+\)', r'\1', title)` — markdown links -/

/-- Split a character list at the first occurrence of `stop`, returning the
chars before it and the chars after it; `none` if `stop` does not occur.
Embeds a greedy `[^X]*` bounded by the literal `X`. -/
def splitAtChar (stop : Char) : List Char → Option (List Char × List Char)
  | [] => none
  | c :: cs =>
    if c = stop then some ([], cs)
    else
      match splitAtChar stop cs with
      | some (a, r) => some (c :: a, r)
      | none => none

/-- Try to match `\[([^\]]+)\]\([^)]+\)` at the head of the list.  On success
return the capture group (the link text) and the remainder after the match. -/
def matchMdLink : List Char → Option (List Char × List Char)
  | [] => none
  | c :: t =>
    if c = '[' then
      match splitAtChar ']' t with
      | some (inner, u) =>
        if inner.isEmpty then none
        else
          match u with
          | d :: v =>
            if d = '(' then
              match splitAtChar ')' v with
              | some (par, rest) => if par.isEmpty then none else some (inner, rest)
              | none => none
            else none
          | [] => none
      | none => none
    else none

/-- Fuelled scan for `re.sub` of the markdown-link pattern: leftmost,
non-overlapping matches replaced by their capture group; replacement text is
not rescanned (Python `re.sub` semantics). -/
def mdLinksGo : Nat → List Char → List Char
  | 0, l => l
  | _ + 1, [] => []
  | fuel + 1, c :: cs =>
    match matchMdLink (c :: cs) with
    | some (inner, rest) => inner ++ mdLinksGo fuel rest
    | none => c :: mdLinksGo fuel cs

def removeMdLinks (l : List Char) : List Char := mdLinksGo l.length l

/-! ## `re.sub(r'https?://\S+', '', title)` — bare URLs -/

/-- Match the literal alternatives `https://` / `http://` at the head
(`https?://`: the optional `s` is tried first, but on these literal
alternatives at most one can apply). -/
def dropUrlHead : List Char → Option (List Char)
  | a :: b :: c :: d :: e :: f :: g :: rest =>
    if a = 'h' ∧ b = 't' ∧ c = 't' ∧ d = 'p' then
      if e = 's' then
        match rest with
        | h2 :: rest2 =>
          if f = ':' ∧ g = '/' ∧ h2 = '/' then some rest2 else none
        | [] => none
      else if e = ':' ∧ f = '/' ∧ g = '/' then some rest else none
    else none
  | _ => none

/-- Greedy `\S*`: the longest non-whitespace run and the remainder. -/
def takeNonSpace : List Char → List Char × List Char
  | [] => ([], [])
  | c :: cs =>
    if isPySpace c then ([], c :: cs)
    else
      let p := takeNonSpace cs
      (c :: p.1, p.2)

/-- Try to match `https?://\S+` at the head; return the remainder after it. -/
def matchUrl (l : List Char) : Option (List Char) :=
  match dropUrlHead l with
  | some rest =>
    match rest with
    | [] => none
    | c :: _ => if isPySpace c then none else some (takeNonSpace rest).2
  | none => none

def urlsGo : Nat → List Char → List Char
  | 0, l => l
  | _ + 1, [] => []
  | fuel + 1, c :: cs =>
    match matchUrl (c :: cs) with
    | some rest => urlsGo fuel rest
    | none => c :: urlsGo fuel cs

def removeUrls (l : List Char) : List Char := urlsGo l.length l

/-! ## `re.sub(r'\[.*?\]', '', title)` and `re.sub(r'\(.*?\)', '', title)` -/

/-- Non-greedy `.*?` up to the literal `cl`: the span before the first `cl`
and the remainder after it.  `.` does not match a newline, so the scan fails
if a newline appears before the closing character. -/
def spanToClose (cl : Char) : List Char → Option (List Char × List Char)
  | [] => none
  | c :: cs =>
    if c = cl then some ([], cs)
    else if c = '\n' then none
    else
      match spanToClose cl cs with
      | some (a, r) => some (c :: a, r)
      | none => none

/-- Fuelled scan for `re.sub` of `op.*?cl` (e.g. `\[.*?\]`): each leftmost
non-overlapping delimited span is deleted. -/
def delimGo (op cl : Char) : Nat → List Char → List Char
  | 0, l => l
  | _ + 1, [] => []
  | fuel + 1, c :: cs =>
    if c = op then
      match spanToClose cl cs with
      | some (_, rest) => delimGo op cl fuel rest
      | none => c :: delimGo op cl fuel cs
    else c :: delimGo op cl fuel cs

def removeBrackets (l : List Char) : List Char := delimGo '[' ']' l.length l

def removeParens (l : List Char) : List Char := delimGo '(' ')' l.length l

/-! ## Character filters and `' '.join(title.split())` -/

def removeEmph (l : List Char) : List Char := l.filter (fun c => !(isEmph c))

def keepAllowed (l : List Char) : List Char := l.filter isAllowedChar

/-- `str.split()`: split on runs of whitespace, discarding empty pieces.
`acc` holds the current word, reversed. -/
def splitWsAux : List Char → List Char → List (List Char)
  | [], acc => if acc.isEmpty then [] else [acc.reverse]
  | c :: cs, acc =>
    if isPySpace c then
      if acc.isEmpty then splitWsAux cs []
      else acc.reverse :: splitWsAux cs []
    else splitWsAux cs (c :: acc)

def splitWs (l : List Char) : List (List Char) := splitWsAux l []

/-- `' '.join(words)`. -/
def joinWords : List (List Char) → List Char
  | [] => []
  | [w] => w
  | w :: ws => w ++ ' ' :: joinWords ws

/-- `' '.join(s.split())`: collapse whitespace runs to single spaces. -/
def collapseWs (l : List Char) : List Char := joinWords (splitWs l)

/-- The full title-cleaning pipeline of `format_event_message`, in source
order: markdown links, bare URLs, emphasis punctuation, bracketed spans,
parenthesized spans, conservative character filter, whitespace collapse. -/
def cleanTitleList (l : List Char) : List Char :=
  collapseWs (keepAllowed (removeParens (removeBrackets
    (removeEmph (removeUrls (removeMdLinks l))))))

def cleanTitle (s : String) : String := (cleanTitleList s.toList).asString

/-! ## Aggregator (`MeetupBot.meetup_task`, lines 416–464)

An `Ev` is the per-listing dictionary built by `get_meetup_events`
(lines 665–674); the instant `time` is seconds since an arbitrary epoch and
`location` is the resolved display name (`location['name']`). -/

structure Ev where
  title : String
  url : String
  time : Int
  location : String
  group : String
  description : String
  searchTerm : String
  mode : String
deriving DecidableEq

/-- One step of the dict comprehension `{event['title']: event for event in
all_events}`: insertion order is by first occurrence of the key, the value is
the last one assigned. -/
def dictInsert (acc : List Ev) (e : Ev) : List Ev :=
  if acc.any (fun x => x.title == e.title) then
    acc.map (fun x => if x.title == e.title then e else x)
  else acc ++ [e]

/-- `unique_events = {event['title']: event for event in all_events}.values()`. -/
def dedupeByTitle (l : List Ev) : List Ev := l.foldl dictInsert []

/-- Stable insertion keeping the new element after equal start times. -/
def insertByTime (e : Ev) : List Ev → List Ev
  | [] => [e]
  | x :: xs => if e.time < x.time then e :: x :: xs else x :: insertByTime e xs

/-- `sorted(future_events, key=lambda x: x['time'])` — a stable sort by time. -/
def sortByTime (l : List Ev) : List Ev := l.foldl (fun acc e => insertByTime e acc) []

/-- `timedelta.days`: floor of the difference in whole days. -/
def daysDiff (t today : Int) : Int := Int.fdiv (t - today) 86400

/-- Deduplicate, keep strictly-future events, sort ascending by time. -/
def futureSorted (all : List Ev) (now : Int) : List Ev :=
  sortByTime ((dedupeByTitle all).filter (fun e => now < e.time))

/-- The `this_week` list: events with `0 <= days_diff <= 7`. -/
def thisWeekOf (sorted : List Ev) (today : Int) : List Ev :=
  sorted.filter (fun e => decide (0 ≤ daysDiff e.time today ∧ daysDiff e.time today ≤ 7))

/-- The `next_week` list: events with `8 <= days_diff <= 14`. -/
def nextWeekOf (sorted : List Ev) (today : Int) : List Ev :=
  sorted.filter (fun e => decide (8 ≤ daysDiff e.time today ∧ daysDiff e.time today ≤ 14))

/-- One step of building `events_by_search_term`: append to the existing
group of this search term, or start a new group at the end. -/
def groupUpd (acc : List (String × List Ev)) (e : Ev) : List (String × List Ev) :=
  if acc.any (fun p => p.1 == e.searchTerm) then
    acc.map (fun p => if p.1 == e.searchTerm then (p.1, p.2 ++ [e]) else p)
  else acc ++ [(e.searchTerm, [e])]

def groupByTerm (l : List Ev) : List (String × List Ev) := l.foldl groupUpd []

def concatGroups : List (String × List Ev) → List Ev
  | [] => []
  | p :: ps => p.2 ++ concatGroups ps

/-- The ordered publish sequence: groups in first-occurrence search-term
order, chronological order preserved within each group. -/
def publishOrder (l : List Ev) : List Ev := concatGroups (groupByTerm l)

/-- The per-event posting loop: an event whose channel send raises
`discord.errors.HTTPException` is skipped (`continue`) and the loop moves on
to the next event.  `sendOk` tells whether the send of an event's message
succeeds. -/
def postLoop (sendOk : Ev → Bool) : List Ev → List Ev
  | [] => []
  | e :: rest => if sendOk e then e :: postLoop sendOk rest else postLoop sendOk rest

/-- The publish phase of `meetup_task`: the header message is sent first and
a failure there `return`s, abandoning the whole cycle; otherwise each event
of the publish sequence is posted with per-event error recovery.  Returns
the list of successfully posted events, in order. -/
def publishCycle (headerOk : Bool) (sendOk : Ev → Bool) (sorted : List Ev) : List Ev :=
  if headerOk then postLoop sendOk (publishOrder sorted) else []

/-! ## Action registry (`events` table; `save_event_data`,
`delete_event_data`, the lookup in `meetup_task` lines 468–486 and the
in-memory `event_data_map` kept in lockstep with it) -/

/-- A row of the `events` table (line 217–229). -/
structure EventRec where
  uuid : String
  title : String
  startTime : Int
  endTime : Int
  location : String
  description : String
  url : String
deriving DecidableEq

abbrev Db := List EventRec

/-- `SELECT uuid FROM events WHERE title = ? AND start_time = ?` (first row). -/
def findPair (db : Db) (t : String) (s : Int) : Option EventRec :=
  db.find? (fun r => r.title == t && r.startTime == s)

/-- `(db.filter matching-pair).length`: how many rows exist for a pair. -/
def countPair (db : Db) (t : String) (s : Int) : Nat :=
  (db.filter (fun r => r.title == t && r.startTime == s)).length

/-- `INSERT OR REPLACE INTO events ... (uuid PRIMARY KEY)`: any conflicting
row is deleted and the new row appended. -/
def insertOrReplace (db : Db) (r : EventRec) : Db :=
  db.filter (fun x => !(x.uuid == r.uuid)) ++ [r]

/-- The reservation step of `meetup_task` (lines 468–486): reuse the uuid of
an existing row with this (title, start); otherwise persist a new row under
the freshly generated uuid.  Returns the identifier and the updated store. -/
def reserveEvent (db : Db) (t : String) (s : Int) (e : Int) (loc desc u : String)
    (fresh : String) : String × Db :=
  match findPair db t s with
  | some r => (r.uuid, db)
  | none => (fresh, insertOrReplace db ⟨fresh, t, s, e, loc, desc, u⟩)

/-- `event_data_map.get(uuid)` / `SELECT * FROM events WHERE uuid = ?`. -/
def getEvent (db : Db) (u : String) : Option EventRec :=
  db.find? (fun r => r.uuid == u)

/-- `DELETE FROM events WHERE uuid = ?` together with
`del event_data_map[uuid]` (the two stores are kept in lockstep). -/
def consumeEvent (db : Db) (u : String) : Db :=
  db.filter (fun r => !(r.uuid == u))

/-! ## The control-activation callback (`CreateEventButton.callback`) -/

/-- The ephemeral messages the callback can send to the acting user. -/
inductive Notice where
  | stale
  | createFail
  | success
deriving DecidableEq

/-- Result of one activation: the registry afterwards, whether the message's
control set was edited to the disabled "Event Created!" state, the ephemeral
notices sent, whether `consume` ran, and whether the external
`create_scheduled_event` call was performed. -/
structure CbOut where
  db : Db
  viewDisabled : Bool
  notices : List Notice
  consumed : Bool
  created : Bool

/-- One activation of the control for identifier `u`, run to completion
without interleaving.  `extOk` is whether `create_scheduled_event` succeeds;
`editOk` is whether the subsequent `message.edit` succeeds.  Mirrors the
source order: lookup, external create, edit view, confirmation, consume;
any raise lands in the `except` branch which only sends a failure notice. -/
def callbackRun (db : Db) (u : String) (extOk editOk : Bool) : CbOut :=
  match getEvent db u with
  | none => ⟨db, false, [Notice.stale], false, false⟩
  | some _ =>
    if extOk then
      if editOk then ⟨consumeEvent db u, true, [Notice.success], true, true⟩
      else ⟨db, false, [Notice.createFail], false, true⟩
    else ⟨db, false, [Notice.createFail], false, false⟩

/-! ## Interleaved activations of one control

The discord event loop delivers activations concurrently; `await` points
inside the callback let two activations of the same identifier interleave.
Each activation is three atomic phases: the synchronous lookup (`check`),
the external create (`act`), and the removal of the record (`consume`);
a task whose lookup failed returns and performs neither later phase. -/

inductive Op where
  | check : Nat → Op
  | act : Nat → Op
  | consume : Nat → Op
deriving DecidableEq

def opTask : Op → Nat
  | Op.check t => t
  | Op.act t => t
  | Op.consume t => t

/-- Global state for activations of one identifier: whether its record is
still present, how many times the external create has succeeded, which
tasks have passed the lookup, and which tasks' create call succeeded. -/
structure RaceState where
  reg : Bool
  fired : Nat
  passed : List Nat
  created : List Nat
deriving DecidableEq

/-- One atomic phase of an activation.  `actOk t` tells whether task `t`'s
`create_scheduled_event` call succeeds — a raise there lands in the `except`
and everything after line 104 is skipped.  `editOk t` tells whether its
`message.edit` and confirmation succeed — a raise there lands in the
`except` after the create already succeeded, so the removal at lines
149–150 is skipped and the record stays pending.  A task whose lookup
failed returned at line 90 and performs neither later phase. -/
def stepOp (actOk editOk : Nat → Bool) (s : RaceState) : Op → RaceState
  | Op.check t => if s.reg then ⟨s.reg, s.fired, t :: s.passed, s.created⟩ else s
  | Op.act t =>
    if s.passed.contains t then
      if actOk t then ⟨s.reg, s.fired + 1, s.passed, t :: s.created⟩ else s
    else s
  | Op.consume t =>
    if s.passed.contains t && s.created.contains t && editOk t then
      ⟨false, s.fired, s.passed, s.created⟩
    else s

def runOps (actOk editOk : Nat → Bool) (ops : List Op) (s : RaceState) : RaceState :=
  ops.foldl (stepOp actOk editOk) s

/-- Program order of one activation task. -/
def taskProg (t : Nat) : List Op := [Op.check t, Op.act t, Op.consume t]

/-- A schedule in which activations run one after another, atomically. -/
def seqScheds : List Nat → List Op
  | [] => []
  | t :: ts => taskProg t ++ seqScheds ts

/-- Two activations of the same control interleaved at the `await` points:
both lookups pass before either removal runs. -/
def raceSched : List Op :=
  [Op.check 0, Op.act 0, Op.check 1, Op.act 1, Op.consume 0, Op.consume 1]

/-- Initial state: the record is pending, the action has never fired. -/
def initRace : RaceState := ⟨true, 0, [], []⟩

/-! ## Location fallback of `format_event_message` (lines 786–798) -/

/-- `str.strip()` over the ASCII whitespace class. -/
def pyStrip (s : String) : String :=
  (((s.toList.dropWhile isPySpace).reverse.dropWhile isPySpace).reverse).asString

/-- The `'location'` field of the returned `event_data`:
`location_text if location_text and str(location_text).strip() else "Online"`. -/
def eventDataLocation (e : Ev) : String :=
  if e.location == "" || pyStrip e.location == "" then "Online" else e.location

/-! ## Concrete instances used in witnesses and counterexamples -/

def dupA : Ev := ⟨"AI Meetup", "https://a", 86400, "", "G1", "", "ai", "offline"⟩

def dupB : Ev :=
  ⟨"AI Meetup", "https://b", 172800, "", "G2", "", "machine learning", "offline"⟩

def offlineNoLoc : Ev := ⟨"Tech Talk", "https://m", 86400, " ", "G", "", "ai", "offline"⟩

def evW5 : Ev := ⟨"A", "https://1", 432000, "L", "G", "", "ai", "offline"⟩

def evW12 : Ev := ⟨"B", "https://2", 1036800, "L", "G", "", "ai", "offline"⟩

def evW22 : Ev := ⟨"C", "https://3", 1900800, "L", "G", "", "ml", "offline"⟩

def evPost : Ev := ⟨"Py Night", "https://p", 86400, "L", "G", "", "python", "offline"⟩

def recW : EventRec := ⟨"u1", "T", 60, 3660, "L", "D", "https://u"⟩

def recW2 : EventRec := ⟨"u2", "S", 120, 3720, "M", "E", "https://v"⟩

/-! ## Helper lemmas about the aggregator -/

/-- Number of events with a given title. -/
def countTitle (l : List Ev) (t : String) : Nat :=
  (l.filter (fun e => e.title == t)).length

/-- Whether some event of the list has the given title. -/
def hasTitle (l : List Ev) (t : String) : Bool :=
  l.any (fun e => e.title == t)

lemma title_replace (e x : Ev) :
    (if x.title == e.title then e else x).title = x.title := by
  by_cases h : x.title = e.title <;> simp [h]

lemma countTitle_map_replace (acc : List Ev) (e : Ev) (t : String) :
    countTitle (acc.map (fun x => if x.title == e.title then e else x)) t
      = countTitle acc t := by
  induction acc with
  | nil => rfl
  | cons a as ih =>
    simp only [countTitle] at ih ⊢
    simp only [List.map_cons, List.filter_cons, title_replace]
    cases h : (a.title == t) <;> simpa using ih

lemma hasTitle_map_replace (acc : List Ev) (e : Ev) (t : String) :
    hasTitle (acc.map (fun x => if x.title == e.title then e else x)) t
      = hasTitle acc t := by
  induction acc with
  | nil => rfl
  | cons a as ih =>
    simp only [List.map_cons, hasTitle, List.any_cons, title_replace] at *
    rw [ih]

lemma hasTitle_dictInsert (acc : List Ev) (e : Ev) (t : String) :
    hasTitle (dictInsert acc e) t = (hasTitle acc t || (e.title == t)) := by
  unfold dictInsert
  by_cases hc : acc.any (fun x => x.title == e.title) = true
  · rw [if_pos hc, hasTitle_map_replace]
    by_cases h2 : e.title = t
    · have : hasTitle acc t = true := by
        subst h2; simpa [hasTitle] using hc
      simp [this]
    · simp [h2]
  · rw [if_neg hc]
    simp [hasTitle, List.any_append]

lemma countTitle_dictInsert (acc : List Ev) (e : Ev) (t : String)
    (hinv : ∀ t', countTitle acc t' = if hasTitle acc t' then 1 else 0) :
    countTitle (dictInsert acc e) t = if hasTitle (dictInsert acc e) t then 1 else 0 := by
  unfold dictInsert
  by_cases hc : acc.any (fun x => x.title == e.title) = true
  · rw [if_pos hc, countTitle_map_replace, hasTitle_map_replace, hinv]
  · rw [if_neg hc]
    simp only [countTitle, hasTitle, List.filter_append, List.any_append,
      List.length_append]
    by_cases h2 : e.title = t
    · have hnot : hasTitle acc t = false := by
        subst h2
        simpa [hasTitle] using hc
      have := hinv t
      rw [hnot] at this
      simp only [countTitle] at this
      simp [h2, this]
    · have := hinv t
      simp only [countTitle, hasTitle] at this
      simp [h2, this]

lemma countTitle_foldl (l : List Ev) :
    ∀ acc, (∀ t', countTitle acc t' = if hasTitle acc t' then 1 else 0) →
      ∀ t, countTitle (l.foldl dictInsert acc) t
        = if (hasTitle acc t || l.any (fun e => e.title == t)) then 1 else 0 := by
  induction l with
  | nil => intro acc hinv t; simpa using hinv t
  | cons e es ih =>
    intro acc hinv t
    have hinv' : ∀ t', countTitle (dictInsert acc e) t'
        = if hasTitle (dictInsert acc e) t' then 1 else 0 :=
      fun t' => countTitle_dictInsert acc e t' hinv
    calc countTitle ((e :: es).foldl dictInsert acc) t
        = countTitle (es.foldl dictInsert (dictInsert acc e)) t := rfl
      _ = if (hasTitle (dictInsert acc e) t || es.any (fun x => x.title == t))
            then 1 else 0 := ih (dictInsert acc e) hinv' t
      _ = _ := by
          rw [hasTitle_dictInsert]
          simp [List.any_cons, Bool.or_assoc, Bool.or_comm (e.title == t)]

/-! ## Helper lemmas about the publish order -/

lemma concatGroups_append (xs ys : List (String × List Ev)) :
    concatGroups (xs ++ ys) = concatGroups xs ++ concatGroups ys := by
  induction xs with
  | nil => rfl
  | cons p ps ih => simp [concatGroups, ih]

lemma mem_concatGroups_map_add (acc : List (String × List Ev)) (e : Ev)
    (hc : acc.any (fun p => p.1 == e.searchTerm) = true) :
    e ∈ concatGroups (acc.map
      (fun p => if p.1 == e.searchTerm then (p.1, p.2 ++ [e]) else p)) := by
  induction acc with
  | nil => simp at hc
  | cons a as ih =>
    simp only [List.any_cons, Bool.or_eq_true] at hc
    simp only [List.map_cons, concatGroups]
    by_cases h1 : (a.1 == e.searchTerm) = true
    · rw [if_pos h1]
      simp
    · rw [if_neg h1]
      rcases hc with hc | hc
      · exact absurd hc h1
      · exact List.mem_append_right _ (ih hc)

lemma mem_concatGroups_map_mono (acc : List (String × List Ev)) (e x : Ev)
    (hx : x ∈ concatGroups acc) :
    x ∈ concatGroups (acc.map
      (fun p => if p.1 == e.searchTerm then (p.1, p.2 ++ [e]) else p)) := by
  induction acc with
  | nil => simpa using hx
  | cons a as ih =>
    simp only [concatGroups, List.mem_append] at hx
    simp only [List.map_cons, concatGroups, List.mem_append]
    rcases hx with hx | hx
    · left
      by_cases h1 : (a.1 == e.searchTerm) = true
      · rw [if_pos h1]; simp [hx]
      · rw [if_neg h1]; exact hx
    · right; exact ih hx

lemma mem_concatGroups_groupUpd_self (acc : List (String × List Ev)) (e : Ev) :
    e ∈ concatGroups (groupUpd acc e) := by
  unfold groupUpd
  by_cases hc : acc.any (fun p => p.1 == e.searchTerm) = true
  · rw [if_pos hc]; exact mem_concatGroups_map_add acc e hc
  · rw [if_neg hc]
    rw [concatGroups_append]
    simp [concatGroups]

lemma mem_concatGroups_groupUpd_mono (acc : List (String × List Ev)) (e x : Ev)
    (hx : x ∈ concatGroups acc) : x ∈ concatGroups (groupUpd acc e) := by
  unfold groupUpd
  by_cases hc : acc.any (fun p => p.1 == e.searchTerm) = true
  · rw [if_pos hc]; exact mem_concatGroups_map_mono acc e x hx
  · rw [if_neg hc, concatGroups_append]
    exact List.mem_append_left _ hx

lemma mem_concatGroups_foldl (l : List Ev) :
    ∀ acc x, (x ∈ concatGroups acc ∨ x ∈ l) →
      x ∈ concatGroups (l.foldl groupUpd acc) := by
  induction l with
  | nil =>
    intro acc x hx
    rcases hx with hx | hx
    · exact hx
    · simp at hx
  | cons e es ih =>
    intro acc x hx
    show x ∈ concatGroups (es.foldl groupUpd (groupUpd acc e))
    apply ih
    rcases hx with hx | hx
    · exact Or.inl (mem_concatGroups_groupUpd_mono acc e x hx)
    · rcases List.mem_cons.mp hx with hx | hx
      · exact Or.inl (hx ▸ mem_concatGroups_groupUpd_self acc e)
      · exact Or.inr hx

lemma mem_publishOrder {l : List Ev} {x : Ev} (hx : x ∈ l) : x ∈ publishOrder l :=
  mem_concatGroups_foldl l [] x (Or.inr hx)

lemma mem_postLoop_of {sendOk : Ev → Bool} {l : List Ev} {e : Ev}
    (he : e ∈ l) (hok : sendOk e = true) : e ∈ postLoop sendOk l := by
  induction l with
  | nil => simp at he
  | cons x xs ih =>
    rcases List.mem_cons.mp he with he | he
    · subst he
      simp [postLoop, hok]
    · by_cases hx : sendOk x = true
      · simp [postLoop, hx, ih he]
      · simp only [postLoop, if_neg hx]
        exact ih he

lemma not_mem_postLoop {sendOk : Ev → Bool} {l : List Ev} {f : Ev}
    (hf : sendOk f = false) : f ∉ postLoop sendOk l := by
  induction l with
  | nil => simp [postLoop]
  | cons x xs ih =>
    by_cases hx : sendOk x = true
    · simp only [postLoop, if_pos hx, List.mem_cons]
      rintro (rfl | hmem)
      · rw [hx] at hf; exact Bool.noConfusion hf
      · exact ih hmem
    · simp only [postLoop, if_neg hx]
      exact ih

/-! ## Helper lemmas about the registry -/

lemma findPair_insertOrReplace (db : Db) (t : String) (s : Int)
    (rec : EventRec) (h : findPair db t s = none)
    (ht : rec.title = t) (hs : rec.startTime = s) :
    findPair (insertOrReplace db rec) t s = some rec := by
  unfold findPair insertOrReplace
  rw [List.find?_append]
  have hnone : (db.filter (fun x => !(x.uuid == rec.uuid))).find?
      (fun r => r.title == t && r.startTime == s) = none := by
    rw [List.find?_eq_none]
    intro x hx
    have hxdb : x ∈ db := (List.mem_filter.mp hx).1
    have := List.find?_eq_none.mp h x hxdb
    simpa using this
  rw [hnone]
  simp [List.find?_cons, ht, hs]

lemma countPair_insertOrReplace (db : Db) (t : String) (s : Int)
    (rec : EventRec) (h : findPair db t s = none)
    (ht : rec.title = t) (hs : rec.startTime = s) :
    countPair (insertOrReplace db rec) t s = 1 := by
  have h' : db.find? (fun r => r.title == t && r.startTime == s) = none := h
  unfold countPair insertOrReplace
  rw [List.filter_append]
  have hnil : (db.filter (fun x => !(x.uuid == rec.uuid))).filter
      (fun r => r.title == t && r.startTime == s) = [] := by
    rw [List.filter_eq_nil_iff]
    intro x hx
    have hxdb : x ∈ db := (List.mem_filter.mp hx).1
    have := List.find?_eq_none.mp h' x hxdb
    simpa using this
  rw [hnil]
  simp [ht, hs]

lemma getEvent_consumeEvent_self (db : Db) (u : String) :
    getEvent (consumeEvent db u) u = none := by
  unfold getEvent consumeEvent
  rw [List.find?_eq_none]
  intro x hx
  have := (List.mem_filter.mp hx).2
  simpa using this

lemma consumeEvent_idem (db : Db) (u : String) :
    consumeEvent (consumeEvent db u) u = consumeEvent db u := by
  unfold consumeEvent
  rw [List.filter_eq_self]
  intro x hx
  exact (List.mem_filter.mp hx).2

lemma getEvent_consumeEvent_other (db : Db) (u v : String) (hv : v ≠ u) :
    getEvent (consumeEvent db u) v = getEvent db v := by
  unfold getEvent consumeEvent
  induction db with
  | nil => rfl
  | cons r rs ih =>
    rw [List.filter_cons]
    cases hru : (r.uuid == u) with
    | true =>
      have h' : r.uuid = u := by simpa using hru
      have hrv : (r.uuid == v) = false := by
        rw [h']
        exact beq_eq_false_iff_ne.mpr (Ne.symm hv)
      simp [List.find?_cons, hrv, ih]
    | false =>
      cases hrv : (r.uuid == v) with
      | true => simp [List.find?_cons, hrv]
      | false => simp [List.find?_cons, hrv, ih]

/-! ## Helper lemmas about interleaved activations -/

lemma runOps_append (actOk editOk : Nat → Bool) (l1 l2 : List Op) (s : RaceState) :
    runOps actOk editOk (l1 ++ l2) s = runOps actOk editOk l2 (runOps actOk editOk l1 s) := by
  unfold runOps
  exact List.foldl_append _ _ _ _

lemma runOps_taskProg_noreg (actOk editOk : Nat → Bool) (fired : Nat)
    (passed created : List Nat) (t : Nat) (ht : t ∉ passed) :
    runOps actOk editOk (taskProg t) ⟨false, fired, passed, created⟩
      = ⟨false, fired, passed, created⟩ := by
  simp [runOps, taskProg, stepOp, List.foldl, ht]

lemma runOps_taskProg_reg_actfail (actOk editOk : Nat → Bool) (fired : Nat)
    (passed created : List Nat) (t : Nat)
    (ht : t ∉ passed) (htc : t ∉ created) (ha : actOk t = false) :
    runOps actOk editOk (taskProg t) ⟨true, fired, passed, created⟩
      = ⟨true, fired, t :: passed, created⟩ := by
  simp [runOps, taskProg, stepOp, List.foldl, ht, htc, ha]

lemma runOps_taskProg_reg_actok (actOk editOk : Nat → Bool) (fired : Nat)
    (passed created : List Nat) (t : Nat)
    (ht : t ∉ passed) (he : editOk t = true) (ha : actOk t = true) :
    runOps actOk editOk (taskProg t) ⟨true, fired, passed, created⟩
      = ⟨false, fired + 1, t :: passed, t :: created⟩ := by
  simp [runOps, taskProg, stepOp, List.foldl, ht, he, ha]

lemma seqScheds_fired_le_one (actOk editOk : Nat → Bool) (ts : List Nat) :
    ∀ s : RaceState, ts.Nodup →
      (∀ t ∈ ts, t ∉ s.passed) → (∀ t ∈ ts, t ∉ s.created) →
      (∀ t ∈ ts, editOk t = true) →
      (s.reg = true → s.fired = 0) → s.fired ≤ 1 →
      (runOps actOk editOk (seqScheds ts) s).fired ≤ 1 := by
  induction ts with
  | nil => intro s _ _ _ _ _ hf; exact hf
  | cons t ts ih =>
    intro s hnd hfp hfc hedit hreg hf
    obtain ⟨reg, fired, passed, created⟩ := s
    rw [seqScheds, runOps_append]
    have hts : ts.Nodup := (List.nodup_cons.mp hnd).2
    have htnotin : t ∉ ts := (List.nodup_cons.mp hnd).1
    have htp : t ∉ passed := hfp t (List.mem_cons_self t ts)
    have htc : t ∉ created := hfc t (List.mem_cons_self t ts)
    have hte : editOk t = true := hedit t (List.mem_cons_self t ts)
    cases reg with
    | false =>
      rw [runOps_taskProg_noreg actOk editOk fired passed created t htp]
      exact ih ⟨false, fired, passed, created⟩ hts
        (fun u hu => hfp u (List.mem_cons_of_mem t hu))
        (fun u hu => hfc u (List.mem_cons_of_mem t hu))
        (fun u hu => hedit u (List.mem_cons_of_mem t hu)) hreg hf
    | true =>
      cases ha : actOk t with
      | false =>
        rw [runOps_taskProg_reg_actfail actOk editOk fired passed created t htp htc ha]
        apply ih ⟨true, fired, t :: passed, created⟩ hts
        · intro u hu
          have hus : u ∉ passed := hfp u (List.mem_cons_of_mem t hu)
          have hut : u ≠ t := fun h => htnotin (h ▸ hu)
          simp [hus, hut]
        · exact fun u hu => hfc u (List.mem_cons_of_mem t hu)
        · exact fun u hu => hedit u (List.mem_cons_of_mem t hu)
        · exact hreg
        · exact hf
      | true =>
        rw [runOps_taskProg_reg_actok actOk editOk fired passed created t htp hte ha]
        apply ih ⟨false, fired + 1, t :: passed, t :: created⟩ hts
        · intro u hu
          have hus : u ∉ passed := hfp u (List.mem_cons_of_mem t hu)
          have hut : u ≠ t := fun h => htnotin (h ▸ hu)
          simp [hus, hut]
        · intro u hu
          have hus : u ∉ created := hfc u (List.mem_cons_of_mem t hu)
          have hut : u ≠ t := fun h => htnotin (h ▸ hu)
          simp [hus, hut]
        · exact fun u hu => hedit u (List.mem_cons_of_mem t hu)
        · intro hcontra
          exact absurd hcontra (by simp)
        · have hz : fired = 0 := hreg rfl
          simp [hz]

/-- With the record absent and no task already past its lookup, a sequence
of whole activations changes nothing: every lookup fails and returns. -/
lemma seqScheds_inert (actOk editOk : Nat → Bool) (ts : List Nat) (fired : Nat) :
    runOps actOk editOk (seqScheds ts) ⟨false, fired, [], []⟩
      = ⟨false, fired, [], []⟩ := by
  induction ts with
  | nil => rfl
  | cons t ts ih =>
    rw [seqScheds, runOps_append,
      runOps_taskProg_noreg actOk editOk fired [] [] t (by simp), ih]

/-! ## Helper lemmas about whitespace collapsing (`' '.join(s.split())`) -/

lemma splitWsAux_words (l : List Char) :
    ∀ acc, (∀ c ∈ acc, isPySpace c = false) →
      ∀ w ∈ splitWsAux l acc, w ≠ [] ∧ ∀ c ∈ w, isPySpace c = false := by
  induction l with
  | nil =>
    intro acc hacc w hw
    by_cases he : acc.isEmpty
    · rw [splitWsAux, if_pos he] at hw
      simp at hw
    · rw [splitWsAux, if_neg he] at hw
      rcases List.mem_singleton.mp hw with rfl
      refine ⟨?_, ?_⟩
      · simp only [ne_eq, List.reverse_eq_nil_iff]
        exact fun hn => he (by simp [hn])
      · intro c hc
        exact hacc c (List.mem_reverse.mp hc)
  | cons d ds ih =>
    intro acc hacc w hw
    rw [splitWsAux] at hw
    by_cases hd : isPySpace d = true
    · rw [if_pos hd] at hw
      by_cases he : acc.isEmpty
      · rw [if_pos he] at hw
        exact ih [] (by simp) w hw
      · rw [if_neg he] at hw
        rcases List.mem_cons.mp hw with rfl | hw'
        · refine ⟨?_, ?_⟩
          · simp only [ne_eq, List.reverse_eq_nil_iff]
            exact fun hn => he (by simp [hn])
          · intro c hc
            exact hacc c (List.mem_reverse.mp hc)
        · exact ih [] (by simp) w hw'
    · rw [if_neg hd] at hw
      refine ih (d :: acc) ?_ w hw
      intro c hc
      rcases List.mem_cons.mp hc with rfl | hc'
      · exact Bool.eq_false_iff.mpr hd
      · exact hacc c hc'

lemma splitWs_words (l : List Char) :
    ∀ w ∈ splitWs l, w ≠ [] ∧ ∀ c ∈ w, isPySpace c = false :=
  splitWsAux_words l [] (by simp)

lemma splitWsAux_word_prefixed (w : List Char) :
    ∀ (l acc : List Char), (∀ c ∈ w, isPySpace c = false) →
      splitWsAux (w ++ l) acc = splitWsAux l (w.reverse ++ acc) := by
  induction w with
  | nil => intro l acc _; simp
  | cons c w' ih =>
    intro l acc hw
    have hc : isPySpace c = false := hw c (List.mem_cons_self c w')
    rw [List.cons_append, splitWsAux, if_neg (by simp [hc])]
    rw [ih l (c :: acc) (fun x hx => hw x (List.mem_cons_of_mem c hx))]
    simp [List.append_assoc]

lemma splitWs_joinWords (ws : List (List Char))
    (h : ∀ w ∈ ws, w ≠ [] ∧ ∀ c ∈ w, isPySpace c = false) :
    splitWs (joinWords ws) = ws := by
  induction ws with
  | nil => rfl
  | cons w ws' ih =>
    have hw := h w (List.mem_cons_self w ws')
    cases ws' with
    | nil =>
      show splitWs w = [w]
      have : splitWs (w ++ []) = [w] := by
        unfold splitWs
        rw [splitWsAux_word_prefixed w [] [] hw.2]
        rw [splitWsAux, if_neg (by simp [hw.1])]
        simp
      simpa using this
    | cons v vs =>
      show splitWs (w ++ ' ' :: joinWords (v :: vs)) = w :: v :: vs
      unfold splitWs
      rw [splitWsAux_word_prefixed w (' ' :: joinWords (v :: vs)) [] hw.2]
      rw [splitWsAux, if_pos (by decide), if_neg (by simp [hw.1])]
      have ihv := ih (fun x hx => h x (List.mem_cons_of_mem w hx))
      simp only [splitWs] at ihv
      rw [ihv]
      simp

lemma collapseWs_collapseWs (l : List Char) :
    collapseWs (collapseWs l) = collapseWs l := by
  unfold collapseWs
  rw [splitWs_joinWords (splitWs l) (splitWs_words l)]

lemma mem_joinWords {c : Char} {ws : List (List Char)} (hc : c ∈ joinWords ws) :
    (∃ w ∈ ws, c ∈ w) ∨ c = ' ' := by
  induction ws with
  | nil => simp [joinWords] at hc
  | cons w ws' ih =>
    cases ws' with
    | nil =>
      exact Or.inl ⟨w, List.mem_cons_self w [], hc⟩
    | cons v vs =>
      rw [show joinWords (w :: v :: vs) = w ++ ' ' :: joinWords (v :: vs) from rfl] at hc
      rcases List.mem_append.mp hc with hcw | hctail
      · exact Or.inl ⟨w, List.mem_cons_self _ _, hcw⟩
      · rcases List.mem_cons.mp hctail with rfl | hcj
        · exact Or.inr rfl
        · rcases ih hcj with ⟨w', hw', hcw'⟩ | hsp
          · exact Or.inl ⟨w', List.mem_cons_of_mem w hw', hcw'⟩
          · exact Or.inr hsp

lemma mem_splitWsAux {c : Char} {w : List Char} (l : List Char) :
    ∀ acc, w ∈ splitWsAux l acc → c ∈ w → c ∈ l ∨ c ∈ acc := by
  induction l with
  | nil =>
    intro acc hw hc
    by_cases he : acc.isEmpty
    · rw [splitWsAux, if_pos he] at hw
      simp at hw
    · rw [splitWsAux, if_neg he] at hw
      rcases List.mem_singleton.mp hw with rfl
      exact Or.inr (List.mem_reverse.mp hc)
  | cons d ds ih =>
    intro acc hw hc
    rw [splitWsAux] at hw
    by_cases hd : isPySpace d = true
    · rw [if_pos hd] at hw
      by_cases he : acc.isEmpty
      · rw [if_pos he] at hw
        rcases ih [] hw hc with hin | hin
        · exact Or.inl (List.mem_cons_of_mem d hin)
        · simp at hin
      · rw [if_neg he] at hw
        rcases List.mem_cons.mp hw with rfl | hw'
        · exact Or.inr (List.mem_reverse.mp hc)
        · rcases ih [] hw' hc with hin | hin
          · exact Or.inl (List.mem_cons_of_mem d hin)
          · simp at hin
    · rw [if_neg hd] at hw
      rcases ih (d :: acc) hw hc with hin | hin
      · exact Or.inl (List.mem_cons_of_mem d hin)
      · rcases List.mem_cons.mp hin with rfl | hin'
        · exact Or.inl (List.mem_cons_self c ds)
        · exact Or.inr hin'

lemma mem_collapseWs {c : Char} {l : List Char} (hc : c ∈ collapseWs l) :
    c ∈ l ∨ c = ' ' := by
  rcases mem_joinWords hc with ⟨w, hw, hcw⟩ | hsp
  · rcases mem_splitWsAux l [] hw hcw with hin | hin
    · exact Or.inl hin
    · simp at hin
  · exact Or.inr hsp

/-! ## Identity and subset lemmas about the regex scanners -/

lemma spanToClose_eq (cl : Char) :
    ∀ (l a r : List Char), spanToClose cl l = some (a, r) → l = a ++ cl :: r := by
  intro l
  induction l with
  | nil => intro a r h; exact Option.noConfusion h
  | cons c cs ih =>
    intro a r h
    rw [spanToClose] at h
    by_cases hc : c = cl
    · rw [if_pos hc] at h
      simp only [Option.some.injEq, Prod.mk.injEq] at h
      rcases h with ⟨rfl, rfl⟩
      simp [hc]
    · rw [if_neg hc] at h
      by_cases hn : c = '\n'
      · rw [if_pos hn] at h
        exact Option.noConfusion h
      · rw [if_neg hn] at h
        cases hsp : spanToClose cl cs with
        | none =>
          rw [hsp] at h
          exact Option.noConfusion h
        | some p =>
          obtain ⟨a', r'⟩ := p
          rw [hsp] at h
          simp only [Option.some.injEq, Prod.mk.injEq] at h
          rw [← h.1, ← h.2, ih a' r' hsp]
          simp

lemma mem_delimGo (op cl : Char) (fuel : Nat) :
    ∀ l c, c ∈ delimGo op cl fuel l → c ∈ l := by
  induction fuel with
  | zero => intro l c hc; exact hc
  | succ f ih =>
    intro l c hc
    cases l with
    | nil => simp [delimGo] at hc
    | cons d ds =>
      rw [delimGo] at hc
      by_cases hd : d = op
      · rw [if_pos hd] at hc
        cases hsp : spanToClose cl ds with
        | none =>
          rw [hsp] at hc
          rcases List.mem_cons.mp hc with rfl | hmem
          · exact List.mem_cons_self c ds
          · exact List.mem_cons_of_mem d (ih ds c hmem)
        | some p =>
          obtain ⟨a, rest⟩ := p
          rw [hsp] at hc
          have hrest : c ∈ rest := ih rest c hc
          have hds : c ∈ ds := by
            rw [spanToClose_eq cl ds a rest hsp]
            simp [hrest]
          exact List.mem_cons_of_mem d hds
      · rw [if_neg hd] at hc
        rcases List.mem_cons.mp hc with rfl | hmem
        · exact List.mem_cons_self c ds
        · exact List.mem_cons_of_mem d (ih ds c hmem)

lemma delimGo_id (op cl : Char) (fuel : Nat) :
    ∀ l, (∀ c ∈ l, c ≠ op) → delimGo op cl fuel l = l := by
  induction fuel with
  | zero => intro l _; rfl
  | succ f ih =>
    intro l hl
    cases l with
    | nil => rfl
    | cons d ds =>
      have hd : d ≠ op := hl d (List.mem_cons_self d ds)
      rw [delimGo, if_neg hd]
      rw [ih ds (fun c hc => hl c (List.mem_cons_of_mem d hc))]

lemma matchMdLink_none {c : Char} (t : List Char) (h : c ≠ '[') :
    matchMdLink (c :: t) = none := by
  rw [matchMdLink, if_neg h]

lemma mdLinksGo_id (fuel : Nat) :
    ∀ l, (∀ c ∈ l, c ≠ '[') → mdLinksGo fuel l = l := by
  induction fuel with
  | zero => intro l _; rfl
  | succ f ih =>
    intro l hl
    cases l with
    | nil => rfl
    | cons d ds =>
      rw [mdLinksGo, matchMdLink_none ds (hl d (List.mem_cons_self d ds))]
      show d :: mdLinksGo f ds = d :: ds
      rw [ih ds (fun c hc => hl c (List.mem_cons_of_mem d hc))]

lemma colon_mem_of_dropUrlHead :
    ∀ {l r : List Char}, dropUrlHead l = some r → ':' ∈ l := by
  intro l r h
  rcases l with _ | ⟨a, _ | ⟨b, _ | ⟨c, _ | ⟨d, _ | ⟨e, _ | ⟨f, _ | ⟨g, rest⟩⟩⟩⟩⟩⟩⟩
  · exact Option.noConfusion h
  · exact Option.noConfusion h
  · exact Option.noConfusion h
  · exact Option.noConfusion h
  · exact Option.noConfusion h
  · exact Option.noConfusion h
  · exact Option.noConfusion h
  · simp only [dropUrlHead] at h
    by_cases hp : a = 'h' ∧ b = 't' ∧ c = 't' ∧ d = 'p'
    · rw [if_pos hp] at h
      by_cases hs : e = 's'
      · rw [if_pos hs] at h
        cases rest with
        | nil => exact Option.noConfusion h
        | cons h2 rest2 =>
          have h' : (if f = ':' ∧ g = '/' ∧ h2 = '/' then some rest2 else none)
              = some r := h
          by_cases hc : f = ':' ∧ g = '/' ∧ h2 = '/'
          · obtain ⟨hf, _, _⟩ := hc
            subst hf
            simp
          · rw [if_neg hc] at h'
            exact Option.noConfusion h'
      · rw [if_neg hs] at h
        by_cases hc : e = ':' ∧ f = '/' ∧ g = '/'
        · obtain ⟨he, _, _⟩ := hc
          subst he
          simp
        · rw [if_neg hc] at h
          exact Option.noConfusion h
    · rw [if_neg hp] at h
      exact Option.noConfusion h

lemma matchUrl_none_of_no_colon {l : List Char} (h : ':' ∉ l) : matchUrl l = none := by
  unfold matchUrl
  cases hd : dropUrlHead l with
  | none => rfl
  | some rest => exact absurd (colon_mem_of_dropUrlHead hd) h

lemma urlsGo_id (fuel : Nat) : ∀ l, ':' ∉ l → urlsGo fuel l = l := by
  induction fuel with
  | zero => intro l _; rfl
  | succ f ih =>
    intro l hl
    cases l with
    | nil => rfl
    | cons d ds =>
      rw [urlsGo, matchUrl_none_of_no_colon hl]
      show d :: urlsGo f ds = d :: ds
      rw [ih ds (fun hc => hl (List.mem_cons_of_mem d hc))]

/-! ## Character-level facts for the idempotence argument -/

lemma allowed_ne_emph {c : Char} (hA : isAllowedChar c = true) (hU : c ≠ '_') :
    isEmph c = false := by
  cases he : isEmph c
  · rfl
  · exfalso
    have hcases : ((c = '*' ∨ c = '_') ∨ c = '~') ∨ c = Char.ofNat 96 := by
      simpa [isEmph, Bool.or_eq_true] using he
    rcases hcases with ((rfl | rfl) | rfl) | rfl
    · exact absurd hA (by decide)
    · exact hU rfl
    · exact absurd hA (by decide)
    · exact absurd hA (by decide)

/-- Every character of a cleaned title is in the conservative set and is not
an underscore (underscores are removed by the emphasis pass and never
reintroduced by the later passes). -/
lemma clean_chars (l : List Char) :
    ∀ c ∈ cleanTitleList l, isAllowedChar c = true ∧ c ≠ '_' := by
  intro c hc
  have hc' : c ∈ collapseWs (keepAllowed (removeParens (removeBrackets
      (removeEmph (removeUrls (removeMdLinks l)))))) := hc
  rcases mem_collapseWs hc' with hx | rfl
  · have hall : isAllowedChar c = true := (List.mem_filter.mp hx).2
    have hy : c ∈ removeParens (removeBrackets (removeEmph (removeUrls (removeMdLinks l)))) :=
      (List.mem_filter.mp hx).1
    have hz1 : c ∈ removeBrackets (removeEmph (removeUrls (removeMdLinks l))) :=
      mem_delimGo '(' ')' _ _ c hy
    have hz2 : c ∈ removeEmph (removeUrls (removeMdLinks l)) :=
      mem_delimGo '[' ']' _ _ c hz1
    have hne : (!(isEmph c)) = true := (List.mem_filter.mp hz2).2
    refine ⟨hall, fun hceq => ?_⟩
    rw [hceq] at hne
    simp [isEmph] at hne
  · exact ⟨by decide, by decide⟩

/-- A string whose characters are all clean and whose whitespace is already
collapsed is a fixed point of the cleaning pipeline. -/
lemma cleanTitleList_fixed (r : List Char)
    (hch : ∀ c ∈ r, isAllowedChar c = true ∧ c ≠ '_')
    (hcol : collapseWs r = r) :
    cleanTitleList r = r := by
  have h1 : removeMdLinks r = r := by
    apply mdLinksGo_id
    intro c hc he
    have hA := (hch c hc).1
    rw [he] at hA
    exact absurd hA (by decide)
  have h2 : removeUrls r = r := by
    apply urlsGo_id
    intro hcmem
    exact absurd (hch ':' hcmem).1 (by decide)
  have h3 : removeEmph r = r := by
    apply List.filter_eq_self.mpr
    intro c hc
    simp [allowed_ne_emph (hch c hc).1 (hch c hc).2]
  have h4 : removeBrackets r = r := by
    apply delimGo_id
    intro c hc he
    have hA := (hch c hc).1
    rw [he] at hA
    exact absurd hA (by decide)
  have h5 : removeParens r = r := by
    apply delimGo_id
    intro c hc he
    have hA := (hch c hc).1
    rw [he] at hA
    exact absurd hA (by decide)
  have h6 : keepAllowed r = r :=
    List.filter_eq_self.mpr (fun c hc => (hch c hc).1)
  show collapseWs (keepAllowed (removeParens (removeBrackets
      (removeEmph (removeUrls (removeMdLinks r)))))) = r
  rw [h1, h2, h3, h4, h5, h6, hcol]

lemma cleanTitleList_idem (l : List Char) :
    cleanTitleList (cleanTitleList l) = cleanTitleList l := by
  apply cleanTitleList_fixed
  · exact clean_chars l
  · exact collapseWs_collapseWs
      (keepAllowed (removeParens (removeBrackets (removeEmph (removeUrls (removeMdLinks l))))))

/-! ## Claim C1 -/

/-- Claim C1, counterexample: the claimed at-most-once guarantee fails on
two concrete paths.  (a) A schedule interleaving two activations of the same
control at the callback's await points — both lookups pass before either
removal — fires the external create twice (the first three conjuncts show
`raceSched` is a genuine interleaving of the two activation programs).
(b) With no interleaving at all: activation 0's create succeeds but its
`message.edit` raises into the `except` (`editOk 0 = false`), so the removal
at lines 149–150 is skipped, the record stays pending, and activation 1
fires the create a second time. -/
theorem create_event_double_fire :
    (raceSched.filter (fun o => opTask o == 0) = taskProg 0
      ∧ raceSched.filter (fun o => opTask o == 1) = taskProg 1
      ∧ raceSched.length = (taskProg 0).length + (taskProg 1).length
      ∧ (runOps (fun _ => true) (fun _ => true) raceSched initRace).fired = 2)
    ∧ (runOps (fun _ => true) (fun t => t == 1) (seqScheds [0, 1]) initRace).fired = 2 := by
  decide

/-- Claim C1, amended: the action fires at most once per identifier only
under two provisos — activations of the control do not interleave, and each
successful create's follow-up message edit and confirmation also succeed so
that the record removal runs.  Unconditionally, once the record is absent
(consumed), later whole activations find it absent and never fire. -/
theorem create_event_at_most_once_guarded :
    (∀ (ts : List Nat) (actOk editOk : Nat → Bool), ts.Nodup →
      (∀ t ∈ ts, editOk t = true) →
      (runOps actOk editOk (seqScheds ts) initRace).fired ≤ 1)
    ∧ (∀ (ts : List Nat) (actOk editOk : Nat → Bool) (fired : Nat),
      (runOps actOk editOk (seqScheds ts) ⟨false, fired, [], []⟩).fired = fired) := by
  constructor
  · intro ts actOk editOk hnd hedit
    exact seqScheds_fired_le_one actOk editOk ts initRace hnd
      (by intro t ht; simp [initRace]) (by intro t ht; simp [initRace])
      hedit (fun _ => rfl) (by simp [initRace])
  · intro ts actOk editOk fired
    rw [seqScheds_inert]

/-- Claim C1, witness for the amended theorem: two sequential activations
whose edits all succeed fire at most once. -/
theorem create_event_at_most_once_guarded_w :
    ([0, 1] : List Nat).Nodup
    ∧ (∀ t ∈ ([0, 1] : List Nat), (fun _ : Nat => true) t = true)
    ∧ (runOps (fun _ => true) (fun _ => true) (seqScheds [0, 1]) initRace).fired ≤ 1 :=
  ⟨by decide, by decide,
    create_event_at_most_once_guarded.1 [0, 1] (fun _ => true) (fun _ => true)
      (by decide) (by decide)⟩

/-! ## Claim C2 -/

/-- Claim C2, counterexample: two listings sharing a title but with distinct
start instants do NOT both remain — `meetup_task` deduplicates on the title
alone (`{event['title']: event for event in all_events}`), so the later
listing replaces the earlier one. -/
theorem dedupe_merges_distinct_starts :
    dupA.title = dupB.title ∧ dupA.time ≠ dupB.time
    ∧ dedupeByTitle [dupA, dupB] = [dupB] := by decide

/-- Claim C2, amended: deduplication identity is the title alone — the
aggregator's output contains exactly one Event per title occurring in the
input (and none for absent titles), regardless of start instants; listings
with identical title and start instant from different search terms collapse
to one as a special case. -/
theorem dedupe_exactly_one_per_title (l : List Ev) (t : String) :
    countTitle (dedupeByTitle l) t
      = if l.any (fun e => e.title == t) then 1 else 0 := by
  have h0 : ∀ t', countTitle ([] : List Ev) t' = if hasTitle [] t' then 1 else 0 :=
    fun t' => rfl
  have := countTitle_foldl l [] h0 t
  simpa [dedupeByTitle, hasTitle] using this

/-! ## Claim C3 -/

/-- Claim C3: reservation is idempotent.  Calling the reserve step twice for
the same (title, start) returns the same identifier and leaves the store
unchanged the second time; when no record for the pair exists, the first
call persists exactly one record for the pair under the fresh identifier. -/
theorem reserve_idempotent (db : Db) (t : String) (s : Int) (e : Int)
    (loc desc u f1 f2 : String) :
    ((reserveEvent (reserveEvent db t s e loc desc u f1).2 t s e loc desc u f2).1
        = (reserveEvent db t s e loc desc u f1).1
      ∧ (reserveEvent (reserveEvent db t s e loc desc u f1).2 t s e loc desc u f2).2
        = (reserveEvent db t s e loc desc u f1).2)
    ∧ (findPair db t s = none →
        (reserveEvent db t s e loc desc u f1).1 = f1
        ∧ countPair (reserveEvent db t s e loc desc u f1).2 t s = 1) := by
  cases hf : findPair db t s with
  | some r =>
    constructor
    · simp [reserveEvent, hf]
    · intro hn
      exact Option.noConfusion hn
  | none =>
    have hfind := findPair_insertOrReplace db t s ⟨f1, t, s, e, loc, desc, u⟩ hf rfl rfl
    constructor
    · simp [reserveEvent, hf, hfind]
    · intro _
      refine ⟨by simp [reserveEvent, hf], ?_⟩
      simpa [reserveEvent, hf] using
        countPair_insertOrReplace db t s ⟨f1, t, s, e, loc, desc, u⟩ hf rfl rfl

/-- Claim C3, witness: reserving the same pair twice in an empty store. -/
theorem reserve_idempotent_w :
    findPair [] "AI Meetup" 864000 = none
    ∧ (reserveEvent [] "AI Meetup" 864000 867600 "L" "D" "https://u" "f1").1 = "f1"
    ∧ countPair (reserveEvent [] "AI Meetup" 864000 867600 "L" "D" "https://u" "f1").2
        "AI Meetup" 864000 = 1 :=
  ⟨rfl, (reserve_idempotent [] "AI Meetup" 864000 867600 "L" "D" "https://u" "f1" "f2").2 rfl⟩

/-! ## Claim C4 -/

/-- Claim C4: consumption is at-most-once and isolated — after consuming an
identifier a lookup of it returns absent, a second consume is a no-op, and
every other identifier's lookup is unaffected. -/
theorem consume_at_most_once (db : Db) (u v : String) (hv : v ≠ u) :
    getEvent (consumeEvent db u) u = none
    ∧ consumeEvent (consumeEvent db u) u = consumeEvent db u
    ∧ getEvent (consumeEvent db u) v = getEvent db v :=
  ⟨getEvent_consumeEvent_self db u, consumeEvent_idem db u,
    getEvent_consumeEvent_other db u v hv⟩

/-- Claim C4, witness at a concrete two-record store. -/
theorem consume_at_most_once_w :
    ("u2" : String) ≠ "u1"
    ∧ getEvent (consumeEvent [recW, recW2] "u1") "u1" = none
    ∧ consumeEvent (consumeEvent [recW, recW2] "u1") "u1" = consumeEvent [recW, recW2] "u1"
    ∧ getEvent (consumeEvent [recW, recW2] "u1") "u2" = getEvent [recW, recW2] "u2" :=
  ⟨by decide, consume_at_most_once [recW, recW2] "u1" "u2" (by decide)⟩

/-! ## Claim C5 -/

/-- Claim C5: a failed activation — stale identifier or failing external
create — leaves the registry and the message's control set unchanged, sends
exactly one ephemeral failure notice and performs no consume; conversely the
success transition (disable, confirmation, consume) occurs only when the
external create and the message edit both succeeded on a present record. -/
theorem failed_activation_no_consume (db : Db) (u : String) (extOk editOk : Bool) :
    ((getEvent db u = none ∨ extOk = false) →
      (callbackRun db u extOk editOk).db = db
      ∧ (callbackRun db u extOk editOk).viewDisabled = false
      ∧ (callbackRun db u extOk editOk).consumed = false
      ∧ ((callbackRun db u extOk editOk).notices = [Notice.stale]
          ∨ (callbackRun db u extOk editOk).notices = [Notice.createFail]))
    ∧ ((callbackRun db u extOk editOk).consumed = true →
        extOk = true ∧ editOk = true
        ∧ (callbackRun db u extOk editOk).created = true
        ∧ (callbackRun db u extOk editOk).viewDisabled = true
        ∧ (callbackRun db u extOk editOk).notices = [Notice.success]
        ∧ getEvent db u ≠ none) := by
  cases hg : getEvent db u with
  | none => cases extOk <;> cases editOk <;> simp [callbackRun, hg]
  | some r => cases extOk <;> cases editOk <;> simp [callbackRun, hg]

/-- Claim C5, witness: a failing external create at a present record. -/
theorem failed_activation_no_consume_w :
    (getEvent [recW] "u1" = none ∨ (false : Bool) = false)
    ∧ (callbackRun [recW] "u1" false true).db = [recW]
    ∧ (callbackRun [recW] "u1" false true).consumed = false :=
  ⟨Or.inr rfl,
    ((failed_activation_no_consume [recW] "u1" false true).1 (Or.inr rfl)).1,
    ((failed_activation_no_consume [recW] "u1" false true).1 (Or.inr rfl)).2.2.1⟩

/-! ## Claim C6 -/

/-- Claim C6: the title-cleaning pipeline — link collapse, URL removal,
emphasis removal, bracket and parenthesis stripping, conservative character
filter, whitespace collapse, in source order — maps the scenario input to
exactly "Join us! Talk". -/
theorem title_cleanup_scenario :
    cleanTitle "[Sponsored] Join us! (free pizza) https://x.co [AI] **Talk**"
      = "Join us! Talk" := by decide

/-! ## Claim C7 -/

/-- Claim C7: the title-cleaning pipeline is idempotent — for every input
string, cleaning its own output returns that output unchanged, so every
already-clean string is a fixed point. -/
theorem clean_title_idempotent (s : String) :
    cleanTitle (cleanTitle s) = cleanTitle s := by
  show (cleanTitleList ((cleanTitleList s.toList).asString).toList).asString
      = (cleanTitleList s.toList).asString
  have htl : ((cleanTitleList s.toList).asString).toList = cleanTitleList s.toList := rfl
  rw [htl, cleanTitleList_idem]

/-! ## Claim C8 -/

/-- Claim C8: relative to `today`, a future event with days-ahead in [0, 7]
is in the this-week bucket, one in [8, 14] is in the next-week bucket, one
farther out is in neither — yet every future event is in the ordered
publish sequence. -/
theorem bucketing_windows (all : List Ev) (now today : Int) (e : Ev)
    (he : e ∈ futureSorted all now) :
    (e ∈ thisWeekOf (futureSorted all now) today ↔
      (0 ≤ daysDiff e.time today ∧ daysDiff e.time today ≤ 7))
    ∧ (e ∈ nextWeekOf (futureSorted all now) today ↔
      (8 ≤ daysDiff e.time today ∧ daysDiff e.time today ≤ 14))
    ∧ (14 < daysDiff e.time today →
      e ∉ thisWeekOf (futureSorted all now) today
      ∧ e ∉ nextWeekOf (futureSorted all now) today)
    ∧ e ∈ publishOrder (futureSorted all now) := by
  refine ⟨?_, ?_, ?_, mem_publishOrder he⟩
  · simp [thisWeekOf, List.mem_filter, he]
  · simp [nextWeekOf, List.mem_filter, he]
  · intro h14
    constructor
    · simp only [thisWeekOf, List.mem_filter, he, true_and, decide_eq_true_eq]
      omega
    · simp only [nextWeekOf, List.mem_filter, he, true_and, decide_eq_true_eq]
      omega

/-- Claim C8, witness: the spec scenario — events 5, 12 and 22 days out;
the 22-day event is in neither bucket yet still in the publish sequence. -/
theorem bucketing_windows_w :
    evW22 ∈ futureSorted [evW12, evW22, evW5] 0
    ∧ (14 < daysDiff evW22.time 0 →
        evW22 ∉ thisWeekOf (futureSorted [evW12, evW22, evW5] 0) 0
        ∧ evW22 ∉ nextWeekOf (futureSorted [evW12, evW22, evW5] 0) 0)
    ∧ evW22 ∈ publishOrder (futureSorted [evW12, evW22, evW5] 0) :=
  ⟨by decide, (bucketing_windows [evW12, evW22, evW5] 0 0 evW22 (by decide)).2.2.1,
    (bucketing_windows [evW12, evW22, evW5] 0 0 evW22 (by decide)).2.2.2⟩

/-! ## Claim C9 -/

/-- Claim C9, counterexample: an offline listing with whitespace-only
location gets the sentinel "Online" — not the empty string the claim
requires for offline listings. -/
theorem offline_empty_location_gets_online :
    offlineNoLoc.mode = "offline" ∧ pyStrip offlineNoLoc.location = ""
    ∧ eventDataLocation offlineNoLoc = "Online"
    ∧ eventDataLocation offlineNoLoc ≠ "" := by decide

/-- Claim C9, amended: when the location text is empty or whitespace-only,
the event-data location becomes the sentinel "Online" unconditionally,
whatever the attendance mode. -/
theorem empty_location_always_online (e : Ev) (h : pyStrip e.location = "") :
    eventDataLocation e = "Online" := by
  unfold eventDataLocation
  rw [h]
  simp

/-- Claim C9, witness for the amended theorem. -/
theorem empty_location_always_online_w :
    pyStrip offlineNoLoc.location = "" ∧ eventDataLocation offlineNoLoc = "Online" :=
  ⟨by decide, empty_location_always_online offlineNoLoc (by decide)⟩

/-! ## Claim C10 -/

/-- Claim C10, counterexample: a failure to send the cycle's header message
aborts the whole cycle — no event is posted even though every event message
send would succeed — contradicting the claim for the cycle's earlier
messages. -/
theorem header_failure_aborts_cycle :
    (fun _ => true : Ev → Bool) evPost = true
    ∧ publishCycle false (fun _ => true) [evPost] = []
    ∧ publishCycle true (fun _ => true) [evPost] = [evPost] := by decide

/-- Claim C10, amended: once the header is sent, event-message send
failures are recovered per message — an event whose send succeeds is posted
no matter which other sends fail, and an event whose send fails is the only
one skipped. -/
theorem event_send_failures_skipped (sendOk : Ev → Bool) (events : List Ev) (e : Ev)
    (he : e ∈ events) (hok : sendOk e = true) :
    e ∈ publishCycle true sendOk events
    ∧ ∀ f : Ev, sendOk f = false → f ∉ publishCycle true sendOk events := by
  unfold publishCycle
  rw [if_pos rfl]
  exact ⟨mem_postLoop_of (mem_publishOrder he) hok,
    fun f hf => not_mem_postLoop hf⟩

/-- Claim C10, witness for the amended theorem. -/
theorem event_send_failures_skipped_w :
    evPost ∈ [evPost] ∧ (fun _ => true : Ev → Bool) evPost = true
    ∧ evPost ∈ publishCycle true (fun _ => true) [evPost] :=
  ⟨by decide, rfl,
    (event_send_failures_skipped (fun _ => true) [evPost] evPost (by decide) rfl).1⟩

end MeetupAlarm
